import Mathlib

/-!
# Verification of the toy-mako module bundler

Shallow embedding of `src/main.rs`: the module-graph builder (`build`),
dependency analysis (`analyze_deps`), dependency resolution bookkeeping,
the generate stage (`replace_deps`, `generate`), the bundle renderer
(`Runtime::render`) and the runtime loader emitted by the renderer.

Modelling conventions:
* `CanonicalModuleId` is a `String` (the Rust code keys its maps by
  `path.to_string_lossy().to_string()`).
* The external collaborators (file system + parser + swc transforms) are
  abstracted into `FS : List (String × List ModuleItem)`, mapping a module id
  to its post-transform top-level AST body.  A missing key models the panic of
  `load`/`parse`/`transform` (the Rust code unwraps on each).
* The external resolver (`oxc_resolver`) is abstracted into a function
  `Res : String → String → Option String` from (importer id, raw specifier)
  to the resolved canonical id; `none` models a resolution failure, on which
  the Rust code panics via `unwrap` carrying the resolver error (which holds
  the specifier).
* Rust `HashMap`s are modelled as association lists; `Vec::pop` pops the last
  element, so the build queue is stored top-first and `Vec::extend` prepends
  the reversed batch.
-/

namespace ToyMako

/-- Association-list lookup keyed by `String`, modelling `HashMap::get` /
`HashMap::contains_key`. -/
def alookup {β : Type} (k : String) : List (String × β) → Option β
  | [] => none
  | (k', v) :: rest => if k' = k then some v else alookup k rest

/-- The key list of an association list (`HashMap::keys`). -/
def keysOf {β : Type} (l : List (String × β)) : List String :=
  l.map Prod.fst

/-- Association-list insert-or-overwrite, modelling `HashMap::insert`:
if the key is present its value is replaced in place, otherwise the binding
is appended. -/
def hashInsert {β : Type} : List (String × β) → String → β → List (String × β)
  | [], k, v => [(k, v)]
  | (k', v') :: rest, k, v =>
    if k' = k then (k, v) :: rest else (k', v') :: hashInsert rest k v

/-- A top-level item of a module body, as far as dependency analysis is
concerned.  `analyze_deps` in `src/main.rs` matches only
`ModuleItem::ModuleDecl(ModuleDecl::Import(_))`; re-export declarations
(`export ... from`, `export * from`) are other `ModuleDecl` variants and a
dynamic `import(...)` expression lives inside a statement, so all of those
fall through the match. -/
inductive ModuleItem : Type
  | importDecl (src : String)
  | exportNamedFrom (src : String)
  | exportAll (src : String)
  | stmtDynImport (src : String)
  | otherStmt
  deriving DecidableEq, Repr

/-- The specifier of a top-level static import declaration, if the item is
one. -/
def itemImportSrc : ModuleItem → Option String
  | .importDecl s => some s
  | _ => none

/-- `analyze_deps` (src/main.rs lines 131-141): walk the body in order and
push the source specifier of every top-level import declaration. -/
def analyze_deps (body : List ModuleItem) : List String :=
  body.foldl
    (fun deps item =>
      match item with
      | .importDecl s => deps ++ [s]
      | _ => deps)
    []

theorem analyze_deps_aux (body : List ModuleItem) :
    ∀ acc, body.foldl
        (fun deps item =>
          match item with
          | ModuleItem.importDecl s => deps ++ [s]
          | _ => deps)
        acc = acc ++ body.filterMap itemImportSrc := by
  induction body with
  | nil => intro acc; simp
  | cons item rest ih =>
    intro acc
    cases item <;> simp [List.foldl, ih, itemImportSrc, List.filterMap_cons]

/-- `analyze_deps` collects exactly the import specifiers, in body order. -/
theorem analyze_deps_eq (body : List ModuleItem) :
    analyze_deps body = body.filterMap itemImportSrc := by
  have h := analyze_deps_aux body []
  simpa [analyze_deps] using h

/-! ## Build stage (src/main.rs lines 47-151) -/

/-- The abstracted file system plus load/parse/transform pipeline: a module
id maps to its post-transform top-level body.  Absence of an id models the
panics of `load`/`parse`/`transform` (each unwraps in the Rust code). -/
abbrev FS := List (String × List ModuleItem)

/-- The abstracted dependency resolver (`oxc_resolver`):
(importer id, raw specifier) → resolved canonical id, `none` on failure. -/
abbrev Res := String → String → Option String

/-- The error a `build` run aborts with (the Rust code panics via `unwrap`).
`loadError` carries the module id whose load/parse/transform failed;
`resolutionError` carries the payload of the resolver error the panic prints:
the unresolved specifier.  No importer information is attached anywhere. -/
inductive BuildErr : Type
  | loadError (id : String)
  | resolutionError (spec : String)
  deriving DecidableEq, Repr

/-- A node of the module graph: the (transformed) body and the dependency map
from raw specifier to resolved canonical id (`Module` in src/main.rs). -/
structure Module : Type where
  body : List ModuleItem
  deps : List (String × String)
  deriving DecidableEq, Repr

/-- `ModuleGraph.modules`: canonical id → module. -/
abbrev Graph := List (String × Module)

/-- The loop state of `build`: the pending queue (`BuildQueue`, stored
top-first: `Vec::pop` takes the last element, so the head here is the next
id popped) and the graph built so far. -/
structure BState : Type where
  queue : List String
  graph : Graph
  deriving Repr

/-- The `resolve` loop of `build` (src/main.rs lines 74-78): for each raw
specifier, in source order, resolve it and insert specifier → resolved id into
`hash_deps`; the first failing specifier aborts (the `unwrap` inside
`resolve`, carrying the resolver's error, which names the specifier). -/
def resolveDeps (res : Res) (self : String) :
    List String → List (String × String) → Except BuildErr (List (String × String))
  | [], acc => .ok acc
  | spec :: rest, acc =>
    match res self spec with
    | none => .error (.resolutionError spec)
    | some rid => resolveDeps res self rest (hashInsert acc spec rid)

/-- One-or-more iterations of the `build` work loop (src/main.rs lines
63-87), with explicit fuel; `none` means the fuel ran out before the queue
emptied.  A popped id already present as a graph key is skipped; otherwise the
module is loaded, analyzed, resolved, inserted, and its resolved dependency
values are pushed onto the queue (`Vec::extend` appends, so in the top-first
representation the reversed batch is prepended). -/
def runBuild (fs : FS) (res : Res) : Nat → BState → Option (Except BuildErr Graph)
  | _, ⟨[], g⟩ => some (.ok g)
  | 0, _ => none
  | n + 1, ⟨p :: rest, g⟩ =>
    if p ∈ keysOf g then
      runBuild fs res n ⟨rest, g⟩
    else
      match alookup p fs with
      | none => some (.error (.loadError p))
      | some body =>
        match resolveDeps res p (analyze_deps body) [] with
        | .error e => some (.error e)
        | .ok deps =>
          runBuild fs res n ⟨(deps.map Prod.snd).reverse ++ rest, (p, ⟨body, deps⟩) :: g⟩

/-- The longest per-module import list in the file system; bounds how much
one processing step can grow the queue. -/
def maxDeps (fs : FS) : Nat :=
  fs.foldl (fun m e => max m (analyze_deps e.2).length) 0

/-- Count of file-system ids not yet inserted into the graph. -/
def freshCount (fs : FS) (g : Graph) : Nat :=
  ((keysOf fs).toFinset \ (keysOf g).toFinset).card

/-- Decreasing measure of the `build` loop. -/
def bMeasure (fs : FS) (s : BState) : Nat :=
  freshCount fs s.graph * (maxDeps fs + 2) + s.queue.length

/-- Fuel sufficient for any run of `build` (equals the measure of the
initial state). -/
def buildFuel (fs : FS) : Nat :=
  (keysOf fs).toFinset.card * (maxDeps fs + 2) + 1

/-- `build` (src/main.rs lines 59-89): start from queue `[entry]` and an
empty graph. -/
def buildM (fs : FS) (res : Res) (entry : String) : Option (Except BuildErr Graph) :=
  runBuild fs res (buildFuel fs) ⟨[entry], []⟩

/-! ### Association-list lemmas -/

theorem alookup_isSome_of_mem {β : Type} {k : String} {l : List (String × β)} :
    k ∈ keysOf l → (alookup k l).isSome := by
  induction l with
  | nil => simp [keysOf]
  | cons e rest ih =>
    intro h
    rcases e with ⟨k', v⟩
    by_cases hk : k' = k
    · simp [alookup, hk]
    · simp [keysOf] at h
      rcases h with h | h
      · exact absurd h.symm hk
      · simpa [alookup, hk] using ih (by simpa [keysOf] using h)

theorem mem_keys_of_alookup {β : Type} {k : String} {v : β} {l : List (String × β)} :
    alookup k l = some v → k ∈ keysOf l := by
  induction l with
  | nil => simp [alookup]
  | cons e rest ih =>
    rcases e with ⟨k', v'⟩
    by_cases hk : k' = k
    · intro _; simp [keysOf, hk]
    · intro h
      simp only [alookup, if_neg hk] at h
      simpa [keysOf] using Or.inr (by simpa [keysOf] using ih h)

theorem mem_of_alookup {β : Type} {k : String} {v : β} {l : List (String × β)} :
    alookup k l = some v → (k, v) ∈ l := by
  induction l with
  | nil => simp [alookup]
  | cons e rest ih =>
    rcases e with ⟨k', v'⟩
    by_cases hk : k' = k
    · subst hk
      intro h
      rw [alookup, if_pos rfl] at h
      injection h with h
      subst h
      exact List.mem_cons_self _ _
    · intro h
      simp only [alookup, if_neg hk] at h
      exact List.mem_cons_of_mem _ (ih h)

theorem alookup_of_mem_nodup {β : Type} {k : String} {v : β} {l : List (String × β)} :
    (keysOf l).Nodup → (k, v) ∈ l → alookup k l = some v := by
  induction l with
  | nil => simp
  | cons e rest ih =>
    rcases e with ⟨k', v'⟩
    intro hnd hm
    have hnd' : (keysOf rest).Nodup := by
      simpa [keysOf] using hnd.of_cons
    rcases List.mem_cons.1 hm with h | h
    · rcases Prod.mk.injEq .. ▸ h with ⟨hk, hv⟩
      simp [alookup, hk.symm, hv]
    · have hk : k' ≠ k := by
        intro hkk
        subst hkk
        simp only [keysOf, List.map_cons, List.nodup_cons] at hnd
        exact hnd.1 (List.mem_map.2 ⟨(k', v), h, rfl⟩)
      simp [alookup, hk, ih hnd' h]

theorem alookup_none_of_not_mem {β : Type} {k : String} {l : List (String × β)} :
    k ∉ keysOf l → alookup k l = none := by
  intro h
  cases hl : alookup k l with
  | none => rfl
  | some v => exact absurd (mem_keys_of_alookup hl) h

theorem hashInsert_length {β : Type} (l : List (String × β)) (k : String) (v : β) :
    (hashInsert l k v).length ≤ l.length + 1 := by
  induction l with
  | nil => simp [hashInsert]
  | cons e rest ih =>
    rcases e with ⟨k', v'⟩
    by_cases hk : k' = k
    · simp [hashInsert, hk]
    · simp only [hashInsert, if_neg hk, List.length_cons]
      omega

theorem hashInsert_mem {β : Type} {l : List (String × β)} {k : String} {v : β} {e : String × β} :
    e ∈ hashInsert l k v → e ∈ l ∨ e = (k, v) := by
  induction l with
  | nil => simp [hashInsert]
  | cons hd rest ih =>
    rcases hd with ⟨k', v'⟩
    by_cases hk : k' = k
    · intro h
      simp only [hashInsert, if_pos hk] at h
      rcases List.mem_cons.1 h with h | h
      · exact Or.inr h
      · exact Or.inl (List.mem_cons_of_mem _ h)
    · intro h
      simp only [hashInsert, if_neg hk] at h
      rcases List.mem_cons.1 h with h | h
      · exact Or.inl (h ▸ List.mem_cons_self _ _)
      · rcases ih h with h | h
        · exact Or.inl (List.mem_cons_of_mem _ h)
        · exact Or.inr h

theorem hashInsert_mem_self {β : Type} (l : List (String × β)) (k : String) (v : β) :
    (k, v) ∈ hashInsert l k v := by
  induction l with
  | nil => simp [hashInsert]
  | cons hd rest ih =>
    rcases hd with ⟨k', v'⟩
    by_cases hk : k' = k
    · simp [hashInsert, hk]
    · simp only [hashInsert, if_neg hk]
      exact List.mem_cons_of_mem _ ih

theorem hashInsert_mem_of_mem {β : Type} {l : List (String × β)} {k : String} {v : β}
    (k' : String) (v' : β) (hkv : k' = k → v' = v) :
    (k, v) ∈ l → (k, v) ∈ hashInsert l k' v' := by
  induction l with
  | nil => simp
  | cons hd rest ih =>
    rcases hd with ⟨k₀, v₀⟩
    intro hm
    by_cases hk : k₀ = k'
    · simp only [hashInsert, if_pos hk]
      rcases List.mem_cons.1 hm with h | h
      · rcases Prod.mk.injEq .. ▸ h with ⟨h1, h2⟩
        have hkk : k' = k := hk.symm.trans h1.symm
        exact List.mem_cons.2 (Or.inl (by rw [hkk, hkv hkk]))
      · exact List.mem_cons_of_mem _ h
    · simp only [hashInsert, if_neg hk]
      rcases List.mem_cons.1 hm with h | h
      · exact h ▸ List.mem_cons_self _ _
      · exact List.mem_cons_of_mem _ (ih h)

theorem hashInsert_keys_of_mem {β : Type} {l : List (String × β)} {k : String} (v : β) :
    k ∈ keysOf l → keysOf (hashInsert l k v) = keysOf l := by
  induction l with
  | nil => simp [keysOf]
  | cons hd rest ih =>
    rcases hd with ⟨k', v'⟩
    intro hm
    by_cases hk : k' = k
    · simp [hashInsert, hk, keysOf]
    · have hm' : k ∈ keysOf rest := by
        simp only [keysOf, List.map_cons, List.mem_cons] at hm
        rcases hm with h | h
        · exact absurd h.symm hk
        · exact h
      simp only [hashInsert, if_neg hk, keysOf, List.map_cons]
      rw [show List.map Prod.fst (hashInsert rest k v) = List.map Prod.fst rest from ih hm']

theorem hashInsert_keys_of_not_mem {β : Type} {l : List (String × β)} {k : String} (v : β) :
    k ∉ keysOf l → keysOf (hashInsert l k v) = keysOf l ++ [k] := by
  induction l with
  | nil => simp [hashInsert, keysOf]
  | cons hd rest ih =>
    rcases hd with ⟨k', v'⟩
    intro hm
    have hk : k' ≠ k := by
      intro h
      exact hm (by simp [keysOf, h])
    have hm' : k ∉ keysOf rest := by
      intro h
      exact hm (by simp [keysOf]; exact Or.inr (by simpa [keysOf] using h))
    simp only [hashInsert, if_neg hk, keysOf, List.map_cons]
    rw [show List.map Prod.fst (hashInsert rest k v) = List.map Prod.fst rest ++ [k] from ih hm']
    simp

theorem hashInsert_keys_nodup {β : Type} {l : List (String × β)} (k : String) (v : β) :
    (keysOf l).Nodup → (keysOf (hashInsert l k v)).Nodup := by
  intro hnd
  by_cases hm : k ∈ keysOf l
  · rw [hashInsert_keys_of_mem v hm]; exact hnd
  · rw [hashInsert_keys_of_not_mem v hm]
    simpa [List.nodup_append] using ⟨hnd, fun h => hm h⟩

/-! ### Properties of `resolveDeps` -/

theorem resolveDeps_ok_length {res : Res} {self : String} :
    ∀ {specs : List String} {acc out : List (String × String)},
      resolveDeps res self specs acc = .ok out → out.length ≤ acc.length + specs.length := by
  intro specs
  induction specs with
  | nil =>
    intro acc out h
    simp only [resolveDeps] at h
    injection h with h
    simp [← h]
  | cons spec rest ih =>
    intro acc out h
    simp only [resolveDeps] at h
    cases hres : res self spec with
    | none => rw [hres] at h; exact absurd h (by simp)
    | some rid =>
      rw [hres] at h
      have := ih h
      have hlen := hashInsert_length acc spec rid
      simp only [List.length_cons]
      omega

/-- Every binding produced by `resolveDeps` resolves one of the given
specifiers (soundness of the dependency map). -/
theorem resolveDeps_ok_sound {res : Res} {self : String} :
    ∀ {specs : List String} {acc out : List (String × String)},
      resolveDeps res self specs acc = .ok out →
      ∀ sd ∈ out, sd ∈ acc ∨ (sd.1 ∈ specs ∧ res self sd.1 = some sd.2) := by
  intro specs
  induction specs with
  | nil =>
    intro acc out h sd hsd
    simp only [resolveDeps] at h
    injection h with h
    exact Or.inl (h ▸ hsd)
  | cons spec rest ih =>
    intro acc out h sd hsd
    simp only [resolveDeps] at h
    cases hres : res self spec with
    | none => rw [hres] at h; exact absurd h (by simp)
    | some rid =>
      rw [hres] at h
      rcases ih h sd hsd with hin | ⟨hs, hr⟩
      · rcases hashInsert_mem hin with hin' | heq
        · exact Or.inl hin'
        · refine Or.inr ⟨?_, ?_⟩
          · rw [heq]; exact List.mem_cons_self _ _
          · rw [heq]; simpa using hres
      · exact Or.inr ⟨List.mem_cons_of_mem _ hs, hr⟩

/-- Once a binding resolving `res self k = some v` is in the accumulator it
survives the rest of the resolve loop (later inserts of the same key write
the same value, since the resolver is a function). -/
theorem resolveDeps_preserves {res : Res} {self : String} :
    ∀ {specs : List String} {acc out : List (String × String)} {k v : String},
      resolveDeps res self specs acc = .ok out →
      res self k = some v → (k, v) ∈ acc → (k, v) ∈ out := by
  intro specs
  induction specs with
  | nil =>
    intro acc out k v h _ hin
    simp only [resolveDeps] at h
    injection h with h
    exact h ▸ hin
  | cons spec rest ih =>
    intro acc out k v h hres hin
    simp only [resolveDeps] at h
    cases hspec : res self spec with
    | none => rw [hspec] at h; exact absurd h (by simp)
    | some rid =>
      rw [hspec] at h
      refine ih h hres (hashInsert_mem_of_mem spec rid ?_ hin)
      intro hk
      subst hk
      rw [hres] at hspec
      injection hspec with h'
      exact h'.symm

/-- Every specifier handed to a successful `resolveDeps` run ends up bound to
its resolved id in the output (completeness of the dependency map). -/
theorem resolveDeps_ok_complete {res : Res} {self : String} :
    ∀ {specs : List String} {acc out : List (String × String)},
      resolveDeps res self specs acc = .ok out →
      ∀ spec ∈ specs, ∃ rid, res self spec = some rid ∧ (spec, rid) ∈ out := by
  intro specs
  induction specs with
  | nil => intro acc out _ spec h; simp at h
  | cons s rest ih =>
    intro acc out h spec hspec
    simp only [resolveDeps] at h
    cases hres : res self s with
    | none => rw [hres] at h; exact absurd h (by simp)
    | some rid =>
      rw [hres] at h
      rcases List.mem_cons.1 hspec with hs | hs
      · subst hs
        exact ⟨rid, hres, resolveDeps_preserves h hres (hashInsert_mem_self acc spec rid)⟩
      · exact ih h spec hs

/-- A failing `resolveDeps` run pinpoints an unresolvable specifier. -/
theorem resolveDeps_error {res : Res} {self : String} :
    ∀ {specs : List String} {acc : List (String × String)} {e : BuildErr},
      resolveDeps res self specs acc = .error e →
      ∃ spec ∈ specs, res self spec = none ∧ e = .resolutionError spec := by
  intro specs
  induction specs with
  | nil => intro acc e h; simp [resolveDeps] at h
  | cons s rest ih =>
    intro acc e h
    simp only [resolveDeps] at h
    cases hres : res self s with
    | none =>
      rw [hres] at h
      injection h with h
      exact ⟨s, List.mem_cons_self _ _, hres, h.symm⟩
    | some rid =>
      rw [hres] at h
      rcases ih h with ⟨spec, hs, hn, he⟩
      exact ⟨spec, List.mem_cons_of_mem _ hs, hn, he⟩

/-- The dependency map has no duplicate raw-specifier keys (it models a
`HashMap` keyed by specifier). -/
theorem resolveDeps_ok_nodup {res : Res} {self : String} :
    ∀ {specs : List String} {acc out : List (String × String)},
      resolveDeps res self specs acc = .ok out →
      (keysOf acc).Nodup → (keysOf out).Nodup := by
  intro specs
  induction specs with
  | nil =>
    intro acc out h hnd
    simp only [resolveDeps] at h
    injection h with h
    exact h ▸ hnd
  | cons s rest ih =>
    intro acc out h hnd
    simp only [resolveDeps] at h
    cases hres : res self s with
    | none => rw [hres] at h; exact absurd h (by simp)
    | some rid =>
      rw [hres] at h
      exact ih h (hashInsert_keys_nodup s rid hnd)

/-! ### Termination of the build loop -/

theorem le_maxDeps {fs : FS} {p : String} {body : List ModuleItem} :
    (p, body) ∈ fs → (analyze_deps body).length ≤ maxDeps fs := by
  have haux : ∀ (l : List (String × List ModuleItem)) (a : Nat),
      a ≤ l.foldl (fun m e => max m (analyze_deps e.2).length) a ∧
      ∀ e ∈ l, (analyze_deps e.2).length ≤
        l.foldl (fun m e => max m (analyze_deps e.2).length) a := by
    intro l
    induction l with
    | nil => intro a; exact ⟨le_refl a, by simp⟩
    | cons hd rest ih =>
      intro a
      rcases ih (max a (analyze_deps hd.2).length) with ⟨h1, h2⟩
      simp only [List.foldl_cons]
      refine ⟨le_trans (le_max_left _ _) h1, ?_⟩
      intro e he
      rcases List.mem_cons.1 he with he' | he'
      · subst he'
        exact le_trans (le_max_right _ _) h1
      · exact h2 e he'
  intro hm
  exact (haux fs 0).2 (p, body) hm

theorem freshCount_insert {fs : FS} {g : Graph} {p : String} (m : Module)
    (hp : p ∈ keysOf fs) (hg : p ∉ keysOf g) :
    freshCount fs ((p, m) :: g) + 1 = freshCount fs g := by
  unfold freshCount
  have hkeys : keysOf ((p, m) :: g) = p :: keysOf g := by simp [keysOf]
  rw [hkeys]
  have hmem : p ∈ (keysOf fs).toFinset \ (keysOf g).toFinset := by
    simp [List.mem_toFinset] at *
    exact ⟨hp, hg⟩
  have : (keysOf fs).toFinset \ (p :: keysOf g).toFinset =
      ((keysOf fs).toFinset \ (keysOf g).toFinset).erase p := by
    rw [List.toFinset_cons, Finset.sdiff_insert]
  rw [this, Finset.card_erase_of_mem hmem]
  have hpos : 0 < ((keysOf fs).toFinset \ (keysOf g).toFinset).card :=
    Finset.card_pos.2 ⟨p, hmem⟩
  omega

/-- Fuel sufficiency: with fuel at least the measure of the state, the build
loop finishes (successfully or with an error) — it never runs out of fuel. -/
theorem runBuild_isSome {fs : FS} {res : Res} :
    ∀ (n : Nat) (s : BState), bMeasure fs s ≤ n → (runBuild fs res n s).isSome := by
  intro n
  induction n with
  | zero =>
    intro s hm
    rcases s with ⟨q, g⟩
    cases q with
    | nil => simp [runBuild]
    | cons p rest =>
      exfalso
      simp [bMeasure] at hm
  | succ n ih =>
    intro s hm
    rcases s with ⟨q, g⟩
    cases q with
    | nil => simp [runBuild]
    | cons p rest =>
      by_cases hmem : p ∈ keysOf g
      · rw [runBuild, if_pos hmem]
        refine ih _ ?_
        simp only [bMeasure, List.length_cons] at hm ⊢
        omega
      · rw [runBuild, if_neg hmem]
        cases hfs : alookup p fs with
        | none => simp
        | some body =>
          cases hrd : resolveDeps res p (analyze_deps body) [] with
          | error e => simp [hrd]
          | ok deps =>
            simp only [hrd]
            refine ih _ ?_
            have hdeps : deps.length ≤ maxDeps fs := by
              have h1 := resolveDeps_ok_length hrd
              have h2 := le_maxDeps (mem_of_alookup hfs)
              simpa using le_trans (by simpa using h1) h2
            have hfresh := @freshCount_insert fs g p ⟨body, deps⟩
              (mem_keys_of_alookup hfs) hmem
            simp only [bMeasure, List.length_cons, List.length_append,
              List.length_reverse, List.length_map] at hm ⊢
            have hpos : 1 ≤ freshCount fs g := by omega
            nlinarith [hfresh, hdeps, hm, hpos]

/-! ### Reachability and the build-loop invariant -/

/-- Transitive reachability through the import topology: the entry is
reachable, and so is the resolved target of any import specifier of a
reachable, loadable module. -/
inductive Reach (fs : FS) (res : Res) (entry : String) : String → Prop
  | base : Reach fs res entry entry
  | step {x : String} {body : List ModuleItem} {spec y : String} :
      Reach fs res entry x → alookup x fs = some body →
      spec ∈ analyze_deps body → res x spec = some y → Reach fs res entry y

/-- The invariant of the `build` work loop. -/
structure BuildInv (fs : FS) (res : Res) (entry : String) (s : BState) : Prop where
  queueReach : ∀ q ∈ s.queue, Reach fs res entry q
  graphSound : ∀ k m, alookup k s.graph = some m →
    alookup k fs = some m.body ∧
    resolveDeps res k (analyze_deps m.body) [] = .ok m.deps ∧
    Reach fs res entry k
  closure : ∀ k m, alookup k s.graph = some m →
    ∀ sd ∈ m.deps, sd.2 ∈ keysOf s.graph ∨ sd.2 ∈ s.queue
  entryIn : entry ∈ keysOf s.graph ∨ entry ∈ s.queue
  keysNodup : (keysOf s.graph).Nodup

theorem buildInv_init (fs : FS) (res : Res) (entry : String) :
    BuildInv fs res entry ⟨[entry], []⟩ := by
  refine ⟨?_, ?_, ?_, ?_, ?_⟩
  · intro q hq
    rcases List.mem_singleton.1 hq with rfl
    exact Reach.base
  · intro k m h; simp [alookup] at h
  · intro k m h; simp [alookup] at h
  · exact Or.inr (List.mem_singleton.2 rfl)
  · simp [keysOf]

/-- Skipping an id that is already a graph key preserves the invariant. -/
theorem buildInv_skip {fs : FS} {res : Res} {entry p : String}
    {rest : List String} {g : Graph}
    (hinv : BuildInv fs res entry ⟨p :: rest, g⟩) (hmem : p ∈ keysOf g) :
    BuildInv fs res entry ⟨rest, g⟩ := by
  refine ⟨?_, hinv.graphSound, ?_, ?_, hinv.keysNodup⟩
  · intro q hq
    exact hinv.queueReach q (List.mem_cons_of_mem _ hq)
  · intro k m hk sd hsd
    rcases hinv.closure k m hk sd hsd with h | h
    · exact Or.inl h
    · rcases List.mem_cons.1 h with h' | h'
      · exact Or.inl (h' ▸ hmem)
      · exact Or.inr h'
  · rcases hinv.entryIn with h | h
    · exact Or.inl h
    · rcases List.mem_cons.1 h with h' | h'
      · exact Or.inl (h' ▸ hmem)
      · exact Or.inr h'

/-- Processing a freshly popped id preserves the invariant. -/
theorem buildInv_process {fs : FS} {res : Res} {entry p : String}
    {rest : List String} {g : Graph} {body : List ModuleItem}
    {deps : List (String × String)}
    (hinv : BuildInv fs res entry ⟨p :: rest, g⟩) (hmem : p ∉ keysOf g)
    (hfs : alookup p fs = some body)
    (hrd : resolveDeps res p (analyze_deps body) [] = .ok deps) :
    BuildInv fs res entry
      ⟨(deps.map Prod.snd).reverse ++ rest, (p, ⟨body, deps⟩) :: g⟩ := by
  have hreachp : Reach fs res entry p := hinv.queueReach p (List.mem_cons_self _ _)
  have hdep_reach : ∀ sd ∈ deps, Reach fs res entry sd.2 := by
    intro sd hsd
    rcases resolveDeps_ok_sound hrd sd hsd with h | ⟨hs, hr⟩
    · simp at h
    · exact Reach.step hreachp hfs hs hr
  refine ⟨?_, ?_, ?_, ?_, ?_⟩
  · intro q hq
    rcases List.mem_append.1 hq with h | h
    · rcases List.mem_map.1 (List.mem_reverse.1 h) with ⟨sd, hsd, rfl⟩
      exact hdep_reach sd hsd
    · exact hinv.queueReach q (List.mem_cons_of_mem _ h)
  · intro k m hk
    by_cases hkp : p = k
    · subst hkp
      rw [alookup, if_pos rfl] at hk
      injection hk with hk
      subst hk
      exact ⟨hfs, hrd, hreachp⟩
    · rw [alookup, if_neg hkp] at hk
      exact hinv.graphSound k m hk
  · intro k m hk sd hsd
    by_cases hkp : p = k
    · subst hkp
      rw [alookup, if_pos rfl] at hk
      injection hk with hk
      subst hk
      refine Or.inr (List.mem_append.2 (Or.inl ?_))
      exact List.mem_reverse.2 (List.mem_map.2 ⟨sd, hsd, rfl⟩)
    · rw [alookup, if_neg hkp] at hk
      rcases hinv.closure k m hk sd hsd with h | h
      · exact Or.inl (by simp [keysOf]; exact Or.inr (by simpa [keysOf] using h))
      · rcases List.mem_cons.1 h with h' | h'
        · exact Or.inl (by simp [keysOf, h'])
        · exact Or.inr (List.mem_append.2 (Or.inr h'))
  · rcases hinv.entryIn with h | h
    · exact Or.inl (by simp [keysOf]; exact Or.inr (by simpa [keysOf] using h))
    · rcases List.mem_cons.1 h with h' | h'
      · exact Or.inl (by simp [keysOf, h'])
      · exact Or.inr (List.mem_append.2 (Or.inr h'))
  · show (p :: keysOf g).Nodup
    exact List.nodup_cons.2 ⟨hmem, hinv.keysNodup⟩

/-- Any run of the build loop that returns a graph ends in a state satisfying
the invariant with an empty queue. -/
theorem runBuild_ok_inv {fs : FS} {res : Res} {entry : String} :
    ∀ {n : Nat} {s : BState} {g : Graph},
      runBuild fs res n s = some (.ok g) → BuildInv fs res entry s →
      BuildInv fs res entry ⟨[], g⟩ := by
  intro n
  induction n with
  | zero =>
    intro s g h hinv
    rcases s with ⟨q, g₀⟩
    cases q with
    | nil =>
      simp only [runBuild, Option.some.injEq] at h
      injection h with h
      exact h ▸ hinv
    | cons p rest => simp [runBuild] at h
  | succ n ih =>
    intro s g h hinv
    rcases s with ⟨q, g₀⟩
    cases q with
    | nil =>
      simp only [runBuild, Option.some.injEq] at h
      injection h with h
      exact h ▸ hinv
    | cons p rest =>
      by_cases hmem : p ∈ keysOf g₀
      · rw [runBuild, if_pos hmem] at h
        exact ih h (buildInv_skip hinv hmem)
      · rw [runBuild, if_neg hmem] at h
        split at h
        · simp at h
        · rename_i body hfs
          split at h
          · simp at h
          · rename_i deps hrd
            exact ih h (buildInv_process hinv hmem hfs hrd)

/-! ### Closed import topologies and successful builds -/

/-- Decidable closedness of a finite import topology: every import specifier
of every module on the file system resolves, and the resolved id is itself
loadable.  Together with loadability of the entry this guarantees that the
build encounters no failure. -/
def closedFS (fs : FS) (res : Res) : Bool :=
  fs.all fun e =>
    (analyze_deps e.2).all fun spec =>
      match res e.1 spec with
      | none => false
      | some rid => (alookup rid fs).isSome

theorem closedFS_spec {fs : FS} {res : Res} (h : closedFS fs res = true) :
    ∀ {x : String} {body : List ModuleItem}, (x, body) ∈ fs →
      ∀ spec ∈ analyze_deps body, ∃ rid, res x spec = some rid ∧ (alookup rid fs).isSome := by
  intro x body hm spec hspec
  have h1 := List.all_eq_true.1 h (x, body) hm
  have h2 := List.all_eq_true.1 h1 spec hspec
  cases hres : res x spec with
  | none => rw [hres] at h2; simp at h2
  | some rid =>
    rw [hres] at h2
    exact ⟨rid, rfl, by simpa using h2⟩

/-- In a closed topology every reachable id is loadable. -/
theorem reach_loadable {fs : FS} {res : Res} {entry : String}
    (hc : closedFS fs res = true) (he : (alookup entry fs).isSome) :
    ∀ {x : String}, Reach fs res entry x → (alookup x fs).isSome := by
  intro x hx
  induction hx with
  | base => exact he
  | step hr hfs hspec hres ih =>
    rename_i x' body spec y
    rcases closedFS_spec hc (mem_of_alookup hfs) spec hspec with ⟨rid, hres', hload⟩
    rw [hres] at hres'
    injection hres' with h'
    exact h' ▸ hload

/-- In a closed topology, a finished run of the build loop from an invariant
state cannot have ended in an error. -/
theorem runBuild_no_error {fs : FS} {res : Res} {entry : String}
    (hc : closedFS fs res = true) (he : (alookup entry fs).isSome) :
    ∀ {n : Nat} {s : BState} {r : Except BuildErr Graph},
      runBuild fs res n s = some r → BuildInv fs res entry s →
      ∃ g, r = .ok g := by
  intro n
  induction n with
  | zero =>
    intro s r h hinv
    rcases s with ⟨q, g₀⟩
    cases q with
    | nil =>
      simp only [runBuild, Option.some.injEq] at h
      exact ⟨g₀, h.symm⟩
    | cons p rest => simp [runBuild] at h
  | succ n ih =>
    intro s r h hinv
    rcases s with ⟨q, g₀⟩
    cases q with
    | nil =>
      simp only [runBuild, Option.some.injEq] at h
      exact ⟨g₀, h.symm⟩
    | cons p rest =>
      have hreachp : Reach fs res entry p :=
        hinv.queueReach p (List.mem_cons_self _ _)
      by_cases hmem : p ∈ keysOf g₀
      · rw [runBuild, if_pos hmem] at h
        exact ih h (buildInv_skip hinv hmem)
      · rw [runBuild, if_neg hmem] at h
        split at h
        · rename_i hfs
          exact absurd (reach_loadable hc he hreachp) (by simp [hfs])
        · rename_i body hfs
          split at h
          · rename_i e hrd
            rcases resolveDeps_error hrd with ⟨spec, hspec, hnone, _⟩
            rcases closedFS_spec hc (mem_of_alookup hfs) spec hspec with ⟨rid, hsome, _⟩
            rw [hnone] at hsome
            exact absurd hsome (by simp)
          · rename_i deps hrd
            exact ih h (buildInv_process hinv hmem hfs hrd)

/-- From a finished invariant state with an empty queue, the graph keys are
exactly the reachable ids and the dependency maps are closed. -/
theorem buildInv_final {fs : FS} {res : Res} {entry : String} {g : Graph}
    (hinv : BuildInv fs res entry ⟨[], g⟩) :
    (∀ k, k ∈ keysOf g ↔ Reach fs res entry k) ∧
    (∀ k m, alookup k g = some m → ∀ sd ∈ m.deps, sd.2 ∈ keysOf g) := by
  have hclosure : ∀ k m, alookup k g = some m → ∀ sd ∈ m.deps, sd.2 ∈ keysOf g := by
    intro k m hk sd hsd
    rcases hinv.closure k m hk sd hsd with h | h
    · exact h
    · simp at h
  refine ⟨?_, hclosure⟩
  intro k
  constructor
  · intro hk
    have hsome := alookup_isSome_of_mem hk
    cases hl : alookup k g with
    | none => rw [hl] at hsome; simp at hsome
    | some m => exact (hinv.graphSound k m hl).2.2
  · intro hr
    induction hr with
    | base =>
      rcases hinv.entryIn with h | h
      · exact h
      · simp at h
    | step hr hfs hspec hres ih =>
      rename_i x body spec y
      cases hl : alookup x g with
      | none =>
        exfalso
        have := alookup_isSome_of_mem ih
        rw [hl] at this
        simp at this
      | some m =>
        rcases hinv.graphSound x m hl with ⟨hfs', hrd, _⟩
        rw [hfs] at hfs'
        injection hfs' with hbody
        rcases resolveDeps_ok_complete hrd spec (hbody ▸ hspec) with ⟨rid, hres', hmem'⟩
        rw [hres] at hres'
        injection hres' with hy
        exact hy ▸ hclosure x m hl (spec, rid) hmem'

/-! ### Single-step view of the build loop -/

/-- The outcome of one iteration of the `build` work loop. -/
inductive StepOut : Type
  | done (g : Graph)
  | fail (e : BuildErr)
  | next (s : BState)

/-- One iteration of the `build` work loop (the body of the `while let` in
src/main.rs lines 63-87), as a single step. -/
def buildStep (fs : FS) (res : Res) : BState → StepOut
  | ⟨[], g⟩ => .done g
  | ⟨p :: rest, g⟩ =>
    if p ∈ keysOf g then .next ⟨rest, g⟩
    else
      match alookup p fs with
      | none => .fail (.loadError p)
      | some body =>
        match resolveDeps res p (analyze_deps body) [] with
        | .error e => .fail e
        | .ok deps => .next ⟨(deps.map Prod.snd).reverse ++ rest, (p, ⟨body, deps⟩) :: g⟩

/-- Iterating `buildStep`; `none` if the loop finished (or failed) before the
requested number of steps. -/
def iterSteps (fs : FS) (res : Res) : Nat → BState → Option BState
  | 0, s => some s
  | n + 1, s =>
    match buildStep fs res s with
    | .next s' => iterSteps fs res n s'
    | _ => none

/-- Coherence: `runBuild` at positive fuel performs exactly one `buildStep`. -/
theorem runBuild_succ (fs : FS) (res : Res) (n : Nat) (s : BState) :
    runBuild fs res (n + 1) s =
      match buildStep fs res s with
      | .done g => some (.ok g)
      | .fail e => some (.error e)
      | .next s' => runBuild fs res n s' := by
  rcases s with ⟨q, g⟩
  cases q with
  | nil => simp [runBuild, buildStep]
  | cons p rest =>
    by_cases hmem : p ∈ keysOf g
    · simp [runBuild, buildStep, hmem]
    · cases halk : alookup p fs with
      | none => simp [runBuild, buildStep, if_neg hmem, halk]
      | some body =>
        cases hrd : resolveDeps res p (analyze_deps body) [] with
        | error e => simp [runBuild, buildStep, if_neg hmem, halk, hrd]
        | ok deps => simp [runBuild, buildStep, if_neg hmem, halk, hrd]

/-- States reached by iterating `buildStep` are intermediate states of the
fueled loop. -/
theorem runBuild_iterSteps (fs : FS) (res : Res) :
    ∀ (k n : Nat) (s s' : BState), iterSteps fs res k s = some s' →
      runBuild fs res (k + n) s = runBuild fs res n s' := by
  intro k
  induction k with
  | zero =>
    intro n s s' h
    simp only [iterSteps, Option.some.injEq] at h
    rw [Nat.zero_add, h]
  | succ k ih =>
    intro n s s' h
    simp only [iterSteps] at h
    cases hstep : buildStep fs res s with
    | done g => rw [hstep] at h; simp at h
    | fail e => rw [hstep] at h; simp at h
    | next s₁ =>
      rw [hstep] at h
      have hn : k + 1 + n = (k + n) + 1 := by omega
      rw [hn, runBuild_succ, hstep]
      exact ih n s₁ s' h

/-! ### Concrete fixtures -/

/-- A small closed, acyclic topology: index → a → b. -/
def exFS : FS :=
  [("/r/index.ts", [.importDecl "./a", .otherStmt]),
   ("/r/a.ts", [.importDecl "./b"]),
   ("/r/b.ts", [.otherStmt])]

/-- Resolver for `exFS`. -/
def exRes : Res := fun _ spec =>
  if spec = "./a" then some "/r/a.ts"
  else if spec = "./b" then some "/r/b.ts"
  else none

/-- A two-module cyclic topology: a ↔ b. -/
def cycFS : FS :=
  [("/r/a.ts", [.importDecl "./b"]),
   ("/r/b.ts", [.importDecl "./a"])]

/-- Resolver for `cycFS`. -/
def cycRes : Res := fun _ spec =>
  if spec = "./a" then some "/r/a.ts"
  else if spec = "./b" then some "/r/b.ts"
  else none

/-! ### C1 and C2 -/

/-- C1: for every entry module and every finite, closed import topology
reachable from it, `build` returns a module graph whose key set is exactly
the set of ids transitively reachable from the entry, and every resolved id
recorded in any module's dependency map is a key of the graph. -/
theorem build_keys_eq_reachable (fs : FS) (res : Res) (entry : String)
    (hc : closedFS fs res = true) (he : (alookup entry fs).isSome = true) :
    ∃ g, buildM fs res entry = some (.ok g) ∧
      (∀ k, k ∈ keysOf g ↔ Reach fs res entry k) ∧
      (∀ k m, alookup k g = some m → ∀ sd ∈ m.deps, sd.2 ∈ keysOf g) := by
  have hm : bMeasure fs ⟨[entry], []⟩ ≤ buildFuel fs := by
    simp [bMeasure, buildFuel, freshCount, keysOf]
  have hsome := @runBuild_isSome fs res (buildFuel fs) ⟨[entry], []⟩ hm
  rcases Option.isSome_iff_exists.1 hsome with ⟨r, hr⟩
  rcases runBuild_no_error hc he hr (buildInv_init fs res entry) with ⟨g, rfl⟩
  have hinv := runBuild_ok_inv hr (buildInv_init fs res entry)
  rcases buildInv_final hinv with ⟨h1, h2⟩
  exact ⟨g, hr, h1, h2⟩

theorem build_keys_eq_reachable_witness :
    ∃ g, buildM exFS exRes "/r/index.ts" = some (.ok g) ∧
      (∀ k, k ∈ keysOf g ↔ Reach exFS exRes "/r/index.ts" k) ∧
      (∀ k m, alookup k g = some m → ∀ sd ∈ m.deps, sd.2 ∈ keysOf g) :=
  build_keys_eq_reachable exFS exRes "/r/index.ts" (by decide) (by decide)

/-- C2: `build` terminates on every finite import topology, including cyclic
ones: the fueled loop always finishes within its fuel, each id is inserted
into the graph at most once, and the cyclic two-module topology builds
successfully. -/
theorem build_terminates :
    (∀ (fs : FS) (res : Res) (entry : String), ∃ r, buildM fs res entry = some r) ∧
    (∀ (fs : FS) (res : Res) (entry : String) (g : Graph),
      buildM fs res entry = some (.ok g) → (keysOf g).Nodup) ∧
    (∃ g, buildM cycFS cycRes "/r/a.ts" = some (.ok g)) := by
  refine ⟨?_, ?_, ?_⟩
  · intro fs res entry
    have hm : bMeasure fs ⟨[entry], []⟩ ≤ buildFuel fs := by
      simp [bMeasure, buildFuel, freshCount, keysOf]
    exact Option.isSome_iff_exists.1
      (@runBuild_isSome fs res (buildFuel fs) ⟨[entry], []⟩ hm)
  · intro fs res entry g h
    exact (runBuild_ok_inv h (buildInv_init fs res entry)).keysNodup
  · exact ⟨_, rfl⟩

theorem build_terminates_witness :
    (∃ r, buildM cycFS cycRes "/r/a.ts" = some r) ∧
    (∀ g, buildM cycFS cycRes "/r/a.ts" = some (.ok g) → (keysOf g).Nodup) :=
  ⟨build_terminates.1 cycFS cycRes "/r/a.ts",
   fun g h => build_terminates.2.1 cycFS cycRes "/r/a.ts" g h⟩

/-! ### C3: the work list is not deduplicated -/

/-- Topology on which the pending queue acquires a duplicate:
m imports y and z, and both y and z import each other. -/
def dupFS : FS :=
  [("/r/m.ts", [.importDecl "./y", .importDecl "./z"]),
   ("/r/y.ts", [.importDecl "./z"]),
   ("/r/z.ts", [.importDecl "./y"])]

/-- Resolver for `dupFS`. -/
def dupRes : Res := fun _ spec =>
  if spec = "./y" then some "/r/y.ts"
  else if spec = "./z" then some "/r/z.ts"
  else none

/-- The state after the build loop on `dupFS` has processed m and z:
the id of y is pending twice. -/
def dupState2 : BState :=
  ⟨["/r/y.ts", "/r/y.ts"],
   [("/r/z.ts", ⟨[.importDecl "./y"], [("./y", "/r/y.ts")]⟩),
    ("/r/m.ts", ⟨[.importDecl "./y", .importDecl "./z"],
      [("./y", "/r/y.ts"), ("./z", "/r/z.ts")]⟩)]⟩

/-- C3 counterexample: two iterations into the build of `dupFS`, the pending
queue contains the id `/r/y.ts` twice, refuting the claimed work-list dedup
invariant; the full build indeed passes through this state. -/
theorem buildQueue_dup_counterexample :
    iterSteps dupFS dupRes 2 ⟨["/r/m.ts"], []⟩ = some dupState2 ∧
    dupState2.queue.count "/r/y.ts" = 2 ∧
    buildM dupFS dupRes "/r/m.ts" = runBuild dupFS dupRes 11 dupState2 := by
  refine ⟨rfl, rfl, ?_⟩
  have h := runBuild_iterSteps dupFS dupRes 2 11 ⟨["/r/m.ts"], []⟩ dupState2 rfl
  exact h

/-- C3 amended: the queue itself is not deduplicated — an id may be pending
several times — but an id already present as a graph key is skipped when
popped, and the graph keys never acquire a duplicate; this is what the code
actually maintains. -/
theorem buildQueue_dedup_amended :
    (∀ (fs : FS) (res : Res) (n : Nat) (p : String) (rest : List String) (g : Graph),
      p ∈ keysOf g →
      runBuild fs res (n + 1) ⟨p :: rest, g⟩ = runBuild fs res n ⟨rest, g⟩) ∧
    (∀ (fs : FS) (res : Res) (entry : String) (g : Graph),
      buildM fs res entry = some (.ok g) → (keysOf g).Nodup) := by
  constructor
  · intro fs res n p rest g hmem
    rw [runBuild, if_pos hmem]
  · intro fs res entry g h
    exact (runBuild_ok_inv h (buildInv_init fs res entry)).keysNodup

theorem buildQueue_dedup_amended_witness :
    runBuild dupFS dupRes 3 ⟨["/r/z.ts"], dupState2.graph⟩ =
      runBuild dupFS dupRes 2 ⟨[], dupState2.graph⟩ ∧
    (keysOf dupState2.graph).Nodup :=
  ⟨buildQueue_dedup_amended.1 dupFS dupRes 2 "/r/z.ts" [] dupState2.graph (by decide),
   by decide⟩

/-! ### C4: failure on an unresolvable specifier -/

/-- The strings contained in a build error (the information the panic
carries). -/
def errStrings : BuildErr → List String
  | .loadError idv => [idv]
  | .resolutionError spec => [spec]

/-- Topology whose entry has an unresolvable import. -/
def missFS : FS := [("/r/index.ts", [.importDecl "./missing"])]

/-- Resolver for `missFS`: nothing resolves. -/
def missRes : Res := fun _ _ => none

/-- Multi-module topology where a non-entry module fails to resolve:
index imports a and b; b (processed before a) imports a missing module. -/
def failFS : FS :=
  [("/r/index.ts", [.importDecl "./a", .importDecl "./b"]),
   ("/r/a.ts", [.otherStmt]),
   ("/r/b.ts", [.importDecl "./missing"])]

/-- Resolver for `failFS`. -/
def failRes : Res := fun _ spec =>
  if spec = "./a" then some "/r/a.ts"
  else if spec = "./b" then some "/r/b.ts"
  else none

/-- C4 counterexample: on an unresolvable specifier the build aborts with the
resolver's error, which contains the specifier only — the importer id
(`/r/index.ts`) appears nowhere in the failure value, refuting the claim
that the failure names both the importer and the specifier. -/
theorem resolution_failure_no_importer_counterexample :
    buildM missFS missRes "/r/index.ts" =
      some (.error (.resolutionError "./missing")) ∧
    "/r/index.ts" ∉ errStrings (.resolutionError "./missing") := by
  exact ⟨rfl, by decide⟩

/-- C4 amended: the first unresolvable specifier aborts the whole build at
the module that triggered it — the result is exactly that resolution error,
naming the unresolved specifier (but not the importer), no pending module is
processed afterwards, and no partial graph is returned; the specifier named
is the first failing one in source order. -/
theorem build_failfast_amended :
    (∀ (fs : FS) (res : Res) (n : Nat) (p : String) (rest : List String)
        (g : Graph) (body : List ModuleItem) (e : BuildErr),
      p ∉ keysOf g → alookup p fs = some body →
      resolveDeps res p (analyze_deps body) [] = .error e →
      runBuild fs res (n + 1) ⟨p :: rest, g⟩ = some (.error e)) ∧
    (∀ (res : Res) (self : String) (pre : List String) (spec : String)
        (post : List String),
      (∀ s ∈ pre, (res self s).isSome) → res self spec = none →
      ∀ acc, resolveDeps res self (pre ++ spec :: post) acc =
        .error (.resolutionError spec)) ∧
    buildM failFS failRes "/r/index.ts" =
      some (.error (.resolutionError "./missing")) := by
  refine ⟨?_, ?_, rfl⟩
  · intro fs res n p rest g body e hmem hfs hrd
    simp [runBuild, hmem, hfs, hrd]
  · intro res self pre
    induction pre with
    | nil =>
      intro spec post _ hn acc
      simp [resolveDeps, hn]
    | cons s pre ih =>
      intro spec post hpre hn acc
      have hs : (res self s).isSome := hpre s (List.mem_cons_self _ _)
      cases hres : res self s with
      | none => rw [hres] at hs; simp at hs
      | some rid =>
        simp only [List.cons_append, resolveDeps, hres]
        exact ih spec post (fun x hx => hpre x (List.mem_cons_of_mem _ hx)) hn _

theorem build_failfast_amended_witness :
    runBuild missFS missRes 1 ⟨["/r/index.ts"], []⟩ =
      some (.error (.resolutionError "./missing")) ∧
    resolveDeps failRes "/r/b.ts" (["./a"] ++ "./missing" :: []) [] =
      .error (.resolutionError "./missing") := by
  constructor
  · exact build_failfast_amended.1 missFS missRes 0 "/r/index.ts" [] []
      [.importDecl "./missing"] (.resolutionError "./missing")
      (by decide) (by decide) rfl
  · exact build_failfast_amended.2.1 failRes "/r/b.ts" ["./a"] "./missing" []
      (by decide) (by decide) []

/-! ### Generate stage: dependency rewrite (src/main.rs lines 248-259) -/

/-- `replace_deps`: for every top-level import declaration whose raw
specifier has a binding in the module's dependency map, replace the
specifier with the resolved canonical id; other items are untouched. -/
def replace_deps (body : List ModuleItem) (deps : List (String × String)) :
    List ModuleItem :=
  body.map fun item =>
    match item with
    | .importDecl s =>
      match alookup s deps with
      | some p => .importDecl p
      | none => .importDecl s
    | other => other

/-- The import specifiers after the rewrite are the original ones pushed
through the dependency map. -/
theorem analyze_deps_replace_deps (body : List ModuleItem)
    (deps : List (String × String)) :
    analyze_deps (replace_deps body deps) =
      (analyze_deps body).map (fun s => (alookup s deps).getD s) := by
  rw [analyze_deps_eq, analyze_deps_eq, replace_deps, List.filterMap_map,
    List.map_filterMap]
  congr 1
  funext item
  cases item with
  | importDecl s =>
    cases h : alookup s deps with
    | none => simp [h, itemImportSrc]
    | some p => simp [h, itemImportSrc]
  | exportNamedFrom s => rfl
  | exportAll s => rfl
  | stmtDynImport s => rfl
  | otherStmt => rfl

/-- The dependency map stored by a successful build binds every import
specifier of the stored body, and keys of the map are duplicate-free. -/
theorem build_module_deps_complete {fs : FS} {res : Res} {entry : String}
    {g : Graph} (h : buildM fs res entry = some (.ok g))
    {k : String} {m : Module} (hk : alookup k g = some m) :
    (∀ spec ∈ analyze_deps m.body, ∃ rid, res k spec = some rid ∧
      alookup spec m.deps = some rid) ∧
    (∀ sd ∈ m.deps, sd.2 ∈ keysOf g) := by
  have hinv := runBuild_ok_inv h (buildInv_init fs res entry)
  rcases hinv.graphSound k m hk with ⟨_, hrd, _⟩
  have hnodup : (keysOf m.deps).Nodup := resolveDeps_ok_nodup hrd (by simp [keysOf])
  have hclosure := (buildInv_final hinv).2 k m hk
  refine ⟨?_, hclosure⟩
  intro spec hspec
  rcases resolveDeps_ok_complete hrd spec hspec with ⟨rid, hres, hmem⟩
  exact ⟨rid, hres, alookup_of_mem_nodup hnodup hmem⟩

/-- C8: for every module of a built graph, the generate-stage rewrite
replaces the specifier of every top-level import declaration with the
canonical id its dependency map assigns to that raw specifier, and after the
rewrite every import specifier is a key of the module graph. -/
theorem replace_deps_rewrites_to_graph_keys (fs : FS) (res : Res)
    (entry : String) (g : Graph)
    (h : buildM fs res entry = some (.ok g))
    (k : String) (m : Module) (hk : alookup k g = some m) :
    analyze_deps (replace_deps m.body m.deps) =
      (analyze_deps m.body).map (fun s => (alookup s m.deps).getD s) ∧
    (∀ spec ∈ analyze_deps m.body, ∃ rid, alookup spec m.deps = some rid ∧
      res k spec = some rid) ∧
    (∀ s ∈ analyze_deps (replace_deps m.body m.deps), s ∈ keysOf g) := by
  rcases build_module_deps_complete h hk with ⟨hcomp, hclosure⟩
  refine ⟨analyze_deps_replace_deps m.body m.deps, ?_, ?_⟩
  · intro spec hspec
    rcases hcomp spec hspec with ⟨rid, hres, hlk⟩
    exact ⟨rid, hlk, hres⟩
  · intro s hs
    rw [analyze_deps_replace_deps] at hs
    rcases List.mem_map.1 hs with ⟨spec, hspec, rfl⟩
    rcases hcomp spec hspec with ⟨rid, _, hlk⟩
    rw [hlk]
    exact hclosure (spec, rid) (mem_of_alookup hlk)

theorem replace_deps_rewrites_to_graph_keys_witness :
    ∃ g m, buildM exFS exRes "/r/index.ts" = some (.ok g) ∧
      alookup "/r/index.ts" g = some m ∧
      analyze_deps (replace_deps m.body m.deps) = ["/r/a.ts"] ∧
      (∀ s ∈ analyze_deps (replace_deps m.body m.deps), s ∈ keysOf g) := by
  refine ⟨_, _, rfl, rfl, ?_, ?_⟩
  · rfl
  · exact (replace_deps_rewrites_to_graph_keys exFS exRes "/r/index.ts" _ rfl
      "/r/index.ts" _ rfl).2.2

/-! ### C10: only top-level static imports contribute dependencies -/

/-- Topology where the entry references modules only through `export ... from`,
`export * from` and a dynamic `import(...)`; all referenced files exist and
resolve, yet none become graph nodes. -/
def nonImportFS : FS :=
  [("/r/e.ts", [.exportNamedFrom "./b", .exportAll "./c", .stmtDynImport "./d"]),
   ("/r/b.ts", [.otherStmt]),
   ("/r/c.ts", [.otherStmt]),
   ("/r/d.ts", [.otherStmt])]

/-- Resolver for `nonImportFS`. -/
def nonImportRes : Res := fun _ spec =>
  if spec = "./b" then some "/r/b.ts"
  else if spec = "./c" then some "/r/c.ts"
  else if spec = "./d" then some "/r/d.ts"
  else none

/-- C10: dependency analysis collects exactly the specifiers of top-level
static import declarations, in body order; modules referenced only through
re-exports or dynamic imports contribute no edge and are absent from the
graph. -/
theorem analyze_deps_only_static_imports :
    (∀ body : List ModuleItem, analyze_deps body = body.filterMap itemImportSrc) ∧
    analyze_deps [ModuleItem.exportNamedFrom "./b", ModuleItem.exportAll "./c",
      ModuleItem.stmtDynImport "./d"] = [] ∧
    buildM nonImportFS nonImportRes "/r/e.ts" =
      some (.ok [("/r/e.ts",
        ⟨[.exportNamedFrom "./b", .exportAll "./c", .stmtDynImport "./d"], []⟩)]) ∧
    keysOf [(("/r/e.ts" : String),
      (⟨[ModuleItem.exportNamedFrom "./b", ModuleItem.exportAll "./c",
         ModuleItem.stmtDynImport "./d"], []⟩ : Module))] = ["/r/e.ts"] :=
  ⟨analyze_deps_eq, rfl, rfl, rfl⟩

/-! ### Generate stage: per-module emission (src/main.rs lines 156-182) -/

/-- The per-module loop of `generate`: rewrite dependencies, run the
generate-time transform (`tramsform_again`, abstracted as `tr`), emit code
(`ast_to_code`, abstracted as `emit`, `none` modelling its panic), and store
the code in the runtime table keyed by the module id, in graph iteration
order. -/
def genModules (tr : List ModuleItem → List ModuleItem)
    (emit : List ModuleItem → Option String) : Graph → Option (List (String × String))
  | [] => some []
  | (p, m) :: rest =>
    match emit (tr (replace_deps m.body m.deps)) with
    | none => none
    | some code =>
      match genModules tr emit rest with
      | none => none
      | some table => some ((p, code) :: table)

/-- The runtime table of a successful generate run is keyed exactly by the
graph keys. -/
theorem genModules_keys {tr : List ModuleItem → List ModuleItem}
    {emit : List ModuleItem → Option String} :
    ∀ {g : Graph} {table : List (String × String)},
      genModules tr emit g = some table → keysOf table = keysOf g := by
  intro g
  induction g with
  | nil =>
    intro table h
    simp only [genModules, Option.some.injEq] at h
    rw [← h]
    rfl
  | cons pm rest ih =>
    intro table h
    rcases pm with ⟨p, m⟩
    simp only [genModules] at h
    split at h
    · simp at h
    · rename_i code he
      split at h
      · simp at h
      · rename_i t hg
        injection h with h
        rw [← h]
        show p :: keysOf t = p :: keysOf rest
        rw [ih hg]

/-! ### Bundle renderer (src/main.rs lines 184-231) -/

/-- The fixed runtime preamble pushed first by `Runtime::render` (the raw
string literal at src/main.rs lines 192-216), verbatim including its leading
newline and trailing indentation. -/
def preambleText : String :=
  "\nconst modules = new Map();\nconst define = (name, moduleFactory) => \x7b\n  modules.set(name, moduleFactory);\n\x7d;\n\nconst moduleCache = new Map();\nconst requireModule = (name) => \x7b\n  if (moduleCache.has(name)) \x7b\n    return moduleCache.get(name).exports;\n  \x7d\n\n  if (!modules.has(name)) \x7b\n    throw new Error(\x60Module \x27$\x7bname\x7d\x27 does not exist.\x60);\n  \x7d\n\n  const moduleFactory = modules.get(name);\n  const module = \x7b\n    exports: \x7b\x7d,\n  \x7d;\n  moduleCache.set(name, module);\n  moduleFactory(module, module.exports, requireModule);\n  return module.exports;\n\x7d;\n        "

/-- One element of the `ret` vector built by `Runtime::render`. -/
inductive Line : Type
  | preamble
  | defineL (idv code : String)
  | bootstrap (idv : String)
  deriving DecidableEq, Repr

/-- The text of one `ret` element: the preamble string, the
`define('id', function (module, exports, require) { code });` format, or the
`requireModule('id');` bootstrap format. -/
def lineText : Line → String
  | .preamble => preambleText
  | .defineL idv code =>
    "define(\x27" ++ idv ++ "\x27, function (module, exports, require) \x7b\n" ++
      code ++ "\n\x7d);"
  | .bootstrap idv => "requireModule(\x27" ++ idv ++ "\x27);"

/-- The `ret` vector of `Runtime::render`: preamble, one define per table
entry in table iteration order, then the single bootstrap call. -/
def renderParts (table : List (String × String)) (entry : String) : List Line :=
  Line.preamble :: (table.map fun pc => Line.defineL pc.1 pc.2) ++ [Line.bootstrap entry]

/-- `Runtime::render`: join the parts with newlines. -/
def render (table : List (String × String)) (entry : String) : String :=
  String.intercalate "\n" ((renderParts table entry).map lineText)

set_option maxRecDepth 40000 in
/-- C7 evidence: `render` on the same module table presented in two different
`HashMap` iteration orders produces different bundle text, so the emission
is not deterministic in the table contents. -/
theorem render_order_dependent :
    ([("/r/a.ts", "a code"), ("/r/b.ts", "b code")] : List (String × String)).Perm
      [("/r/b.ts", "b code"), ("/r/a.ts", "a code")] ∧
    render [("/r/a.ts", "a code"), ("/r/b.ts", "b code")] "/r/a.ts" ≠
      render [("/r/b.ts", "b code"), ("/r/a.ts", "a code")] "/r/a.ts" := by
  constructor
  · exact List.Perm.swap _ _ _
  · decide

/-- Whether a `ret` element is a bootstrap call. -/
def isBootstrap : Line → Bool
  | .bootstrap _ => true
  | _ => false

theorem filterMap_defineId (table : List (String × String)) :
    (table.map fun pc => Line.defineL pc.1 pc.2).filterMap
      (fun l => match l with | Line.defineL i _ => some i | _ => none) =
      keysOf table := by
  induction table with
  | nil => rfl
  | cons pc rest ih =>
    simp only [List.map_cons, List.filterMap_cons, keysOf] at ih ⊢
    rw [ih]

/-- C9: the rendered parts end with exactly one bootstrap call naming the
entry id `root/index.ts` — the same string under which the entry module is
keyed in the graph of a successful build and hence registered via `define` —
and the define registrations carry exactly the graph keys. -/
theorem render_single_bootstrap (fs : FS) (res : Res) (root : String)
    (tr : List ModuleItem → List ModuleItem) (emit : List ModuleItem → Option String)
    (g : Graph) (table : List (String × String))
    (hb : buildM fs res (root ++ "/index.ts") = some (.ok g))
    (hg : genModules tr emit g = some table) :
    (renderParts table (root ++ "/index.ts")).getLast? =
      some (.bootstrap (root ++ "/index.ts")) ∧
    (renderParts table (root ++ "/index.ts")).countP isBootstrap = 1 ∧
    (renderParts table (root ++ "/index.ts")).filterMap
      (fun l => match l with | .defineL i _ => some i | _ => none) = keysOf g ∧
    (root ++ "/index.ts") ∈ keysOf g := by
  have hkeys : keysOf table = keysOf g := genModules_keys hg
  refine ⟨?_, ?_, ?_, ?_⟩
  · simp only [renderParts, ← List.cons_append]
    exact List.getLast?_concat _
  · have h0 : (table.map fun pc => Line.defineL pc.1 pc.2).countP isBootstrap = 0 := by
      rw [List.countP_eq_zero]
      intro l hl
      rcases List.mem_map.1 hl with ⟨pc, _, rfl⟩
      simp [isBootstrap]
    simp [renderParts, List.countP_cons, List.countP_append, h0, isBootstrap]
  · rw [← hkeys]
    simp only [renderParts, List.filterMap_cons, List.filterMap_append]
    rw [filterMap_defineId]
    simp
  · have hinv := runBuild_ok_inv hb (buildInv_init fs res (root ++ "/index.ts"))
    rcases hinv.entryIn with h | h
    · exact h
    · simp at h

theorem render_single_bootstrap_witness :
    ∃ g table,
      buildM exFS exRes ("/r" ++ "/index.ts") = some (.ok g) ∧
      genModules (fun b => b) (fun _ => some "code") g = some table ∧
      ((renderParts table ("/r" ++ "/index.ts")).getLast? =
        some (.bootstrap ("/r" ++ "/index.ts")) ∧
       (renderParts table ("/r" ++ "/index.ts")).countP isBootstrap = 1 ∧
       (renderParts table ("/r" ++ "/index.ts")).filterMap
         (fun l => match l with | .defineL i _ => some i | _ => none) = keysOf g ∧
       ("/r" ++ "/index.ts") ∈ keysOf g) :=
  ⟨_, _, rfl, rfl,
    render_single_bootstrap exFS exRes "/r" (fun b => b) (fun _ => some "code")
      _ _ rfl rfl⟩

/-! ### Compile pipeline and its write effects (src/main.rs lines 32-45, 156-182) -/

/-- An observable event of the compile pipeline, in program order:
the in-memory completion of `Runtime::render`, then `create_dir_all`, then
`fs::write`. -/
inductive Ev : Type
  | rendered
  | createDir (path : String)
  | writeFile (path : String) (content : String)
  deriving DecidableEq, Repr

/-- A compile-pipeline failure (in the Rust code each is a panic). -/
inductive CompileErr : Type
  | buildFail (e : BuildErr)
  | emitFail
  | fuelExhausted
  deriving DecidableEq, Repr

/-- The outcome of a compile: the ordered trace of observable events and the
error, if any. -/
structure CompileOut : Type where
  trace : List Ev
  err : Option CompileErr
  deriving Repr

/-- `generate` (src/main.rs lines 156-182): emit every module, render the
bundle in memory, and only then create the output directory and write
`dist/bundle.js`.  A failure while emitting aborts before any event. -/
def generate (tr : List ModuleItem → List ModuleItem)
    (emit : List ModuleItem → Option String) (g : Graph) (root : String) :
    CompileOut :=
  match genModules tr emit g with
  | none => ⟨[], some .emitFail⟩
  | some table =>
    ⟨[.rendered, .createDir (root ++ "/dist"),
      .writeFile (root ++ "/dist/bundle.js") (render table (root ++ "/index.ts"))],
     none⟩

/-- `compile` (src/main.rs lines 32-45): build from `root/index.ts`, then
generate.  A build failure aborts before any event. -/
def compile (fs : FS) (res : Res) (tr : List ModuleItem → List ModuleItem)
    (emit : List ModuleItem → Option String) (root : String) : CompileOut :=
  match buildM fs res (root ++ "/index.ts") with
  | none => ⟨[], some .fuelExhausted⟩
  | some (.error e) => ⟨[], some (.buildFail e)⟩
  | some (.ok g) => generate tr emit g root

/-- C5: no filesystem output is created or overwritten before the whole
bundle text has been rendered in memory: a failing compile produces no
filesystem event at all, every directory-creation or file-write event is
preceded by the render-completion event, and the written content is exactly
the render of the successfully generated table. -/
theorem output_only_after_render (fs : FS) (res : Res)
    (tr : List ModuleItem → List ModuleItem) (emit : List ModuleItem → Option String)
    (root : String) :
    ((compile fs res tr emit root).err.isSome →
      (compile fs res tr emit root).trace = []) ∧
    (∀ i e, (compile fs res tr emit root).trace.get? i = some e → e ≠ Ev.rendered →
      ∃ j, j < i ∧ (compile fs res tr emit root).trace.get? j = some Ev.rendered) ∧
    (∀ i p c, (compile fs res tr emit root).trace.get? i = some (Ev.writeFile p c) →
      p = root ++ "/dist/bundle.js" ∧
      ∃ g table, buildM fs res (root ++ "/index.ts") = some (.ok g) ∧
        genModules tr emit g = some table ∧
        c = render table (root ++ "/index.ts")) := by
  cases hb : buildM fs res (root ++ "/index.ts") with
  | none =>
    refine ⟨fun _ => ?_, ?_, ?_⟩
    · simp [compile, hb]
    · intro i e he
      simp [compile, hb] at he
    · intro i p c he
      simp [compile, hb] at he
  | some r =>
    cases r with
    | error e =>
      refine ⟨fun _ => ?_, ?_, ?_⟩
      · simp [compile, hb]
      · intro i e' he
        simp [compile, hb] at he
      · intro i p c he
        simp [compile, hb] at he
    | ok g =>
      cases hg : genModules tr emit g with
      | none =>
        refine ⟨fun _ => ?_, ?_, ?_⟩
        · simp [compile, generate, hb, hg]
        · intro i e he
          simp [compile, generate, hb, hg] at he
        · intro i p c he
          simp [compile, generate, hb, hg] at he
      | some table =>
        refine ⟨fun hs => ?_, ?_, ?_⟩
        · simp [compile, generate, hb, hg] at hs
        · intro i e he hne
          simp only [compile, generate, hb, hg] at he ⊢
          match i, he with
          | 0, he =>
            exfalso
            apply hne
            injection he with he
            exact he.symm
          | 1, _ => exact ⟨0, by omega, rfl⟩
          | 2, _ => exact ⟨0, by omega, rfl⟩
          | (n + 3), he => simp at he
        · intro i p c he
          simp only [compile, generate, hb, hg] at he
          match i, he with
          | 0, he => exact absurd he (by simp)
          | 1, he => exact absurd he (by simp)
          | 2, he =>
            injection he with he
            injection he with hp hc
            refine ⟨hp.symm, g, table, ?_, ?_, hc.symm⟩
            · simp [hb]
            · simp [hg]
          | (n + 3), he => simp at he

theorem output_only_after_render_witness :
    (compile missFS missRes (fun b => b) (fun _ => some "x") "/r").trace = [] ∧
    (∃ j, j < 1 ∧ (compile exFS exRes (fun b => b) (fun _ => some "x") "/r").trace.get? j
      = some Ev.rendered) := by
  constructor
  · exact (output_only_after_render missFS missRes (fun b => b)
      (fun _ => some "x") "/r").1 rfl
  · exact (output_only_after_render exFS exRes (fun b => b)
      (fun _ => some "x") "/r").2.1 1 (Ev.createDir ("/r" ++ "/dist")) rfl (by decide)

/-! ### The emitted runtime loader (the preamble's define/require semantics,
src/main.rs lines 192-216)

The bundle registers one factory per module and boots with
`requireModule(entryId)`.  A factory body is modelled as a sequence of
effects on the loader state: requiring another module (discarding or reading
its exports) and assigning an export of the module under construction.  The
loader state is the `moduleCache`: module id → exports record; the record of
a module is shared by reference with the running factory (`module.exports`),
so export assignments update the cached record in place. -/

/-- One effect of a module factory body. -/
inductive Instr : Type
  | req (idv : String)
  | reqGet (idv : String) (key : String) (dst : String) (dflt : Nat)
  | setExp (key : String) (v : Nat)
  deriving DecidableEq, Repr

/-- An exports record: export name → value. -/
abbrev Exports := List (String × Nat)

/-- The `moduleCache`: module id → its (possibly still-populating) exports. -/
abbrev Cache := List (String × Exports)

/-- The `modules` registry: module id → factory body. -/
abbrev ModTable := List (String × List Instr)

/-- A runtime failure of the loader: a `require` of an unregistered id
(the `throw new Error` branch), or exhaustion of the evaluation fuel. -/
inductive LoadErr : Type
  | missing (idv : String)
  | outOfFuel
  deriving DecidableEq, Repr

/-- Assign an export on the cached record of module `idv` (the in-place
mutation of `module.exports` through the shared record). -/
def cacheSet (c : Cache) (idv : String) (k : String) (v : Nat) : Cache :=
  match c with
  | [] => []
  | (i, e) :: rest =>
    if i = idv then (i, hashInsert e k v) :: rest else (i, e) :: cacheSet rest idv k v

/-- Run a factory body instruction by instruction, given the `require`
operation the factory receives as its third argument. -/
def runFactoryAux (reqFn : Cache → String → Except LoadErr (Cache × Exports)) :
    Cache → String → List Instr → Except LoadErr Cache
  | cache, _, [] => .ok cache
  | cache, self, instr :: rest =>
    match instr with
    | .req idv =>
      match reqFn cache idv with
      | .error e => .error e
      | .ok (c2, _) => runFactoryAux reqFn c2 self rest
    | .reqGet idv key dst dflt =>
      match reqFn cache idv with
      | .error e => .error e
      | .ok (c2, exps) =>
        runFactoryAux reqFn (cacheSet c2 self dst ((alookup key exps).getD dflt)) self rest
    | .setExp k v => runFactoryAux reqFn (cacheSet cache self k v) self rest

/-- `requireModule` of the emitted preamble: a cached id returns its current
exports immediately; an unregistered id throws; otherwise a fresh empty
record is inserted into the cache FIRST, then the factory runs (receiving
this same `require`, at decremented fuel), then the (by now populated)
record's exports are returned. -/
def requireModule (mods : ModTable) : Nat → Cache → String → Except LoadErr (Cache × Exports)
  | 0, _, _ => .error .outOfFuel
  | fuel + 1, cache, name =>
    match alookup name cache with
    | some mrec => .ok (cache, mrec)
    | none =>
      match alookup name mods with
      | none => .error (.missing name)
      | some factory =>
        match runFactoryAux (requireModule mods fuel) ((name, []) :: cache) name factory with
        | .error e => .error e
        | .ok cache2 => .ok (cache2, (alookup name cache2).getD [])

/-- Export assignment does not change which modules are cached. -/
theorem cacheSet_keys (c : Cache) (idv k : String) (v : Nat) :
    keysOf (cacheSet c idv k v) = keysOf c := by
  induction c with
  | nil => rfl
  | cons e rest ih =>
    rcases e with ⟨i, ex⟩
    by_cases hi : i = idv
    · simp [cacheSet, hi, keysOf]
    · simp only [cacheSet, if_neg hi, keysOf, List.map_cons]
      rw [show List.map Prod.fst (cacheSet rest idv k v) = List.map Prod.fst rest from ih]

/-- Number of registered modules not yet instantiated. -/
def uncachedCount (mods : ModTable) (cache : Cache) : Nat :=
  ((keysOf mods).toFinset \ (keysOf cache).toFinset).card

theorem uncachedCount_cacheSet (mods : ModTable) (c : Cache) (idv k : String) (v : Nat) :
    uncachedCount mods (cacheSet c idv k v) = uncachedCount mods c := by
  unfold uncachedCount
  rw [cacheSet_keys]

theorem uncachedCount_mono {mods : ModTable} {c c' : Cache}
    (h : ∀ x, x ∈ keysOf c → x ∈ keysOf c') :
    uncachedCount mods c' ≤ uncachedCount mods c := by
  apply Finset.card_le_card
  intro x hx
  simp only [Finset.mem_sdiff, List.mem_toFinset] at hx ⊢
  exact ⟨hx.1, fun hxc => hx.2 (h x hxc)⟩

theorem uncachedCount_insert {mods : ModTable} {cache : Cache} {name : String}
    (hm : name ∈ keysOf mods) (hc : name ∉ keysOf cache) :
    uncachedCount mods ((name, ([] : Exports)) :: cache) < uncachedCount mods cache := by
  unfold uncachedCount
  have hkeys : keysOf ((name, ([] : Exports)) :: cache) = name :: keysOf cache := rfl
  rw [hkeys]
  have hmem : name ∈ (keysOf mods).toFinset \ (keysOf cache).toFinset := by
    simp only [Finset.mem_sdiff, List.mem_toFinset]
    exact ⟨hm, hc⟩
  rw [List.toFinset_cons, Finset.sdiff_insert]
  have hcard := Finset.card_erase_of_mem hmem
  have hpos : 0 < ((keysOf mods).toFinset \ (keysOf cache).toFinset).card :=
    Finset.card_pos.2 ⟨name, hmem⟩
  omega

/-- If the `require` operation only grows the cache, so does a factory run. -/
theorem runFactoryAux_mono (reqFn : Cache → String → Except LoadErr (Cache × Exports))
    (hP : ∀ cache name c2 ex, reqFn cache name = .ok (c2, ex) →
      ∀ x, x ∈ keysOf cache → x ∈ keysOf c2) :
    ∀ instrs cache self c2, runFactoryAux reqFn cache self instrs = .ok c2 →
      ∀ x, x ∈ keysOf cache → x ∈ keysOf c2 := by
  intro instrs
  induction instrs with
  | nil =>
    intro cache self c2 h
    simp only [runFactoryAux, Except.ok.injEq] at h
    intro x hx
    rw [← h]
    exact hx
  | cons instr rest ihi =>
    intro cache self c2 h
    cases instr with
    | req idv =>
      simp only [runFactoryAux] at h
      cases hreq : reqFn cache idv with
      | error e =>
        simp only [hreq] at h
        exact Except.noConfusion h
      | ok p =>
        rcases p with ⟨c1, ex1⟩
        simp only [hreq] at h
        exact fun x hx => ihi c1 self c2 h x (hP cache idv c1 ex1 hreq x hx)
    | reqGet idv key dst dflt =>
      simp only [runFactoryAux] at h
      cases hreq : reqFn cache idv with
      | error e =>
        simp only [hreq] at h
        exact Except.noConfusion h
      | ok p =>
        rcases p with ⟨c1, ex1⟩
        simp only [hreq] at h
        intro x hx
        refine ihi _ self c2 h x ?_
        rw [cacheSet_keys]
        exact hP cache idv c1 ex1 hreq x hx
    | setExp k v =>
      simp only [runFactoryAux] at h
      intro x hx
      refine ihi _ self c2 h x ?_
      rw [cacheSet_keys]
      exact hx

/-- The loader only ever adds modules to the cache. -/
theorem requireModule_mono (mods : ModTable) :
    ∀ (fuel : Nat) (cache : Cache) (name : String) (c2 : Cache) (ex : Exports),
      requireModule mods fuel cache name = .ok (c2, ex) →
      ∀ x, x ∈ keysOf cache → x ∈ keysOf c2 := by
  intro fuel
  induction fuel with
  | zero =>
    intro cache name c2 ex h
    simp [requireModule] at h
  | succ n ih =>
    intro cache name c2 ex h
    rw [requireModule] at h
    cases hc : alookup name cache with
    | some mrec =>
      simp only [hc, Except.ok.injEq, Prod.mk.injEq] at h
      intro x hx
      rw [← h.1]
      exact hx
    | none =>
      simp only [hc] at h
      cases hf : alookup name mods with
      | none =>
        simp only [hf] at h
        exact Except.noConfusion h
      | some factory =>
        simp only [hf] at h
        cases hrun : runFactoryAux (requireModule mods n) ((name, []) :: cache) name factory with
        | error e =>
          simp only [hrun] at h
          exact Except.noConfusion h
        | ok cache2 =>
          simp only [hrun, Except.ok.injEq, Prod.mk.injEq] at h
          intro x hx
          rw [← h.1]
          exact runFactoryAux_mono (requireModule mods n) (fun c nm c2 ex => ih c nm c2 ex)
            factory ((name, []) :: cache) name cache2 hrun x
            (by
              show x ∈ name :: keysOf cache
              exact List.mem_cons_of_mem _ hx)

/-- If the `require` operation only grows the cache and never exhausts fuel
from a cache with fewer than `bound` uninstantiated modules, neither does a
factory run. -/
theorem runFactoryAux_nofuel (mods : ModTable) (bound : Nat)
    (reqFn : Cache → String → Except LoadErr (Cache × Exports))
    (hmono : ∀ cache name c2 ex, reqFn cache name = .ok (c2, ex) →
      ∀ x, x ∈ keysOf cache → x ∈ keysOf c2)
    (hP : ∀ cache name, uncachedCount mods cache < bound →
      reqFn cache name ≠ .error .outOfFuel) :
    ∀ instrs cache self, uncachedCount mods cache < bound →
      runFactoryAux reqFn cache self instrs ≠ .error .outOfFuel := by
  intro instrs
  induction instrs with
  | nil =>
    intro cache self _ h
    simp [runFactoryAux] at h
  | cons instr rest ihi =>
    intro cache self hu h
    cases instr with
    | req idv =>
      simp only [runFactoryAux] at h
      cases hreq : reqFn cache idv with
      | error e =>
        simp only [hreq] at h
        injection h with h'
        exact hP cache idv hu (h' ▸ hreq)
      | ok p =>
        rcases p with ⟨c1, ex1⟩
        simp only [hreq] at h
        have hu1 : uncachedCount mods c1 ≤ uncachedCount mods cache :=
          uncachedCount_mono (hmono cache idv c1 ex1 hreq)
        exact ihi c1 self (Nat.lt_of_le_of_lt hu1 hu) h
    | reqGet idv key dst dflt =>
      simp only [runFactoryAux] at h
      cases hreq : reqFn cache idv with
      | error e =>
        simp only [hreq] at h
        injection h with h'
        exact hP cache idv hu (h' ▸ hreq)
      | ok p =>
        rcases p with ⟨c1, ex1⟩
        simp only [hreq] at h
        have hu1 : uncachedCount mods c1 ≤ uncachedCount mods cache :=
          uncachedCount_mono (hmono cache idv c1 ex1 hreq)
        refine ihi _ self ?_ h
        rw [uncachedCount_cacheSet]
        exact Nat.lt_of_le_of_lt hu1 hu
    | setExp k v =>
      simp only [runFactoryAux] at h
      refine ihi _ self ?_ h
      rw [uncachedCount_cacheSet]
      exact hu

/-- The loader never exhausts its fuel when the fuel exceeds the number of
modules not yet instantiated: every factory runs at most once, so the
require depth is bounded and cyclic imports cannot recurse forever. -/
theorem requireModule_nofuel (mods : ModTable) :
    ∀ (fuel : Nat) (cache : Cache) (name : String),
      uncachedCount mods cache < fuel →
      requireModule mods fuel cache name ≠ .error .outOfFuel := by
  intro fuel
  induction fuel with
  | zero =>
    intro cache name hu
    exact absurd hu (by omega)
  | succ n ih =>
    intro cache name hu h
    rw [requireModule] at h
    cases hc : alookup name cache with
    | some mrec =>
      simp only [hc] at h
      exact Except.noConfusion h
    | none =>
      simp only [hc] at h
      cases hf : alookup name mods with
      | none =>
        simp only [hf] at h
        injection h with h'
        exact LoadErr.noConfusion h'
      | some factory =>
        simp only [hf] at h
        cases hrun : runFactoryAux (requireModule mods n) ((name, []) :: cache) name factory with
        | error e =>
          simp only [hrun] at h
          injection h with h'
          subst h'
          have hnc : name ∉ keysOf cache := by
            intro hmem
            have hs := alookup_isSome_of_mem (l := cache) hmem
            rw [hc] at hs
            simp at hs
          have hins : uncachedCount mods ((name, ([] : Exports)) :: cache) <
              uncachedCount mods cache :=
            uncachedCount_insert (mem_keys_of_alookup hf) hnc
          exact runFactoryAux_nofuel mods n (requireModule mods n)
            (fun c nm c2 ex => requireModule_mono mods n c nm c2 ex)
            (fun c nm hu2 => ih c nm hu2)
            factory ((name, []) :: cache) name (by omega) hrun
        | ok cache2 =>
          simp only [hrun] at h
          exact Except.noConfusion h

/-- Two mutually importing factories: A requires B then exports x = 1;
B reads A.x while A is still in flight (observing the default 99), then
exports y = 2. -/
def cycMods : ModTable :=
  [("A", [.req "B", .setExp "x" 1]),
   ("B", [.reqGet "A" "x" "sawX" 99, .setExp "y" 2])]

/-- C6: in the emitted loader, a require of a cached id returns its current
exports immediately without running anything; the loader can never exhaust
fuel exceeding the number of uninstantiated modules (so executing the bundle
never recurses infinitely, in particular on import cycles); and on the
concrete two-module cycle the in-flight module's partially populated (here
still empty) exports object is what the re-requiring module observes. -/
theorem loader_cycle_safe :
    (∀ (mods : ModTable) (fuel : Nat) (cache : Cache) (name : String) (exps : Exports),
      alookup name cache = some exps →
      requireModule mods (fuel + 1) cache name = .ok (cache, exps)) ∧
    (∀ (mods : ModTable) (fuel : Nat) (cache : Cache) (name : String),
      uncachedCount mods cache < fuel →
      requireModule mods fuel cache name ≠ .error .outOfFuel) ∧
    requireModule cycMods 3 [] "A" =
      .ok ([("B", [("sawX", 99), ("y", 2)]), ("A", [("x", 1)])], [("x", 1)]) := by
  refine ⟨?_, ?_, ?_⟩
  · intro mods fuel cache name exps h
    rw [requireModule]
    simp [h]
  · intro mods fuel cache name hu
    exact requireModule_nofuel mods fuel cache name hu
  · rfl

theorem loader_cycle_safe_witness :
    requireModule cycMods 1 [("A", [("x", 7)])] "A" =
      .ok ([("A", [("x", 7)])], [("x", 7)]) ∧
    requireModule cycMods 3 [] "A" ≠ .error .outOfFuel :=
  ⟨loader_cycle_safe.1 cycMods 0 [("A", [("x", 7)])] "A" [("x", 7)] rfl,
   loader_cycle_safe.2.1 cycMods 3 [] "A" (by decide)⟩

end ToyMako
